import Mathlib

/-!
Verification of the lexical substitution engine, snapshot/restore ledger,
mutation debounce and chunk locator of the Aura_UserLens content script
(`src/content.js`).  The JavaScript functions are shallowly embedded as
executable Lean definitions over `String` / `List Char`; the regular
expression compiled by `buildRegexFromMap` is embedded as an explicit
backtracking matcher with exactly the pattern's alternative order.
-/

namespace Aura

/-- ASCII apostrophe (U+0027), used by the possessive suffix in the pattern. -/
def apo : Char := Char.ofNat 39

/-- Typographic apostrophe (U+2019), recognized by
`transformSuffixForReplacement` but never produced by the pattern. -/
def typApo : Char := Char.ofNat 0x2019

/-- The possessive suffix string `'s` (ASCII apostrophe). -/
def posS : String := String.mk [apo, 's']

/-- The possessive suffix with a typographic apostrophe. -/
def posTyp : String := String.mk [typApo, 's']

/-- `content.js` line 158: `'aeiou'.indexOf(c.toLowerCase()) !== -1`. -/
def isVowel (c : Char) : Bool := ['a', 'e', 'i', 'o', 'u'].contains c.toLower

/-- A character of the word class `[\p{L}0-9]` used by the compiled pattern's
boundary classes (restricted to the ASCII letters the claims exercise). -/
def isWordChar (c : Char) : Bool := c.isAlpha || c.isDigit

/-- "`p` is literally the front of `s`" (case-sensitive). -/
def leadsB : List Char → List Char → Bool
  | [], _ => true
  | _ :: _, [] => false
  | p :: ps, c :: cs => (p == c) && leadsB ps cs

/-- JS `s.toLowerCase()` (kernel-computable list form). -/
def lowerS (s : String) : String := String.mk (s.toList.map Char.toLower)

/-- JS `s.toUpperCase()` (kernel-computable list form). -/
def upperS (s : String) : String := String.mk (s.toList.map Char.toUpper)

/-- JS `s.slice(n)` (kernel-computable list form). -/
def dropS (s : String) (n : Nat) : String := String.mk (s.toList.drop n)

/-- JS `s.slice(0, -n)` (kernel-computable list form). -/
def dropRightS (s : String) (n : Nat) : String :=
  String.mk (s.toList.take (s.toList.length - n))

/-- JS `s.endsWith(suf)` (kernel-computable list form). -/
def endsWithS (s suf : String) : Bool :=
  if suf.toList.length ≤ s.toList.length then
    s.toList.drop (s.toList.length - suf.toList.length) == suf.toList
  else false

/-- JS `s.startsWith(t)` (kernel-computable list form). -/
def startsWithS (s t : String) : Bool := leadsB t.toList s.toList

/-- JS `s.trim()` on a character list. -/
def trimL (l : List Char) : List Char :=
  ((l.dropWhile Char.isWhitespace).reverse.dropWhile Char.isWhitespace).reverse

/-- JS `s.charAt(i)` (null character for an out-of-range index). -/
def charAtD (s : String) (i : Nat) : Char := s.toList.getD i (Char.ofNat 0)

/-- JS `s.slice(-n)`: the last `n` characters. -/
def strTakeRight (s : String) (n : Nat) : String :=
  String.mk (s.toList.drop (s.length - n))

/-- JS `s.charAt(0).toUpperCase() + s.slice(1)`. -/
def capFirst (s : String) : String :=
  match s.toList with
  | [] => s
  | c :: cs => String.mk (c.toUpper :: cs)

/-- JS `s[0] === s[0].toUpperCase()` for a nonempty string. -/
def firstUpper (s : String) : Bool :=
  match s.toList with
  | [] => false
  | c :: _ => c.toUpper == c

/-- The metacharacters escaped by `reEscape` (`content.js` line 36):
`. * + ? ^ $ { } ( ) | [ ] \`. -/
def regexMeta : List Char :=
  ['.', '*', '+', '?', Char.ofNat 94, '$', Char.ofNat 123, Char.ofNat 125,
   '(', ')', '|', '[', ']', Char.ofNat 92]

/-- `content.js` line 36: `String(s).replace(/[.*+?^${}()|[\]\\]/g, '\\$&')` —
every regex metacharacter of a dictionary key is backslash-escaped before the
key is put into the alternation, so no key can break the pattern. -/
def reEscape (s : String) : String :=
  String.mk (s.toList.foldr
    (fun c acc => if regexMeta.contains c then Char.ofNat 92 :: c :: acc else c :: acc) [])

/-- `content.js` lines 39-49 (`preserveCaseReplace`): an all-caps match
upper-cases the replacement, a title-case match capitalizes the replacement's
first letter, and otherwise the replacement is returned unchanged. -/
def preserveCaseReplace (m r : String) : String :=
  if m.toList = [] ∨ r.toList = [] then (if r.toList = [] then m else r)
  else if upperS m = m then upperS r
  else if firstUpper m = true ∧ lowerS (dropS m 1) = dropS m 1 then capFirst r
  else r

/-- `content.js` lines 149-210 (`transformSuffixForReplacement`): re-derive
the inflected form of the replacement base for a matched suffix. -/
def transformSuffixForReplacement (replacementBase sfx : String) : String :=
  if sfx.toList.isEmpty then ""
  else if sfx == posS || sfx == posTyp then posS
  else
    let s := lowerS sfx
    if s == "ing" then
      if replacementBase.length > 1 && endsWithS replacementBase "e"
          && !endsWithS replacementBase "ee" then
        dropRightS replacementBase 1 ++ "ing"
      else replacementBase ++ "ing"
    else if s == "ed" then
      if endsWithS replacementBase "e" then replacementBase ++ "d"
      else replacementBase ++ "ed"
    else if s == "er" then replacementBase ++ "er"
    else if s == "est" then replacementBase ++ "est"
    else if s == "ly" then
      if endsWithS replacementBase "y" && replacementBase.length > 1
          && !isVowel (charAtD replacementBase (replacementBase.length - 2)) then
        dropRightS replacementBase 1 ++ "ily"
      else if endsWithS replacementBase "e" && !endsWithS replacementBase "ee" then
        dropRightS replacementBase 1 ++ "ly"
      else replacementBase ++ "ly"
    else if s == "s" || s == "es" then
      let last1 := lowerS (strTakeRight replacementBase 1)
      let last2 := lowerS (strTakeRight replacementBase 2)
      if ["s", "x", "z"].contains last1 || ["ch", "sh"].contains last2 then
        replacementBase ++ "es"
      else if endsWithS replacementBase "y" && replacementBase.length > 1
          && !isVowel (charAtD replacementBase (replacementBase.length - 2)) then
        dropRightS replacementBase 1 ++ "ies"
      else replacementBase ++ "s"
    else replacementBase ++ sfx

/-- JS object access `map[k]` on the dictionary (first binding wins). -/
def lookupMap (map : List (String × String)) (k : String) : Option String :=
  (map.find? (fun p => p.1 == k)).map (·.2)

/-- JS falsiness of `map[k]`: `undefined` and the empty string are falsy. -/
def jsFalsy : Option String → Bool
  | none => true
  | some s => s.isEmpty

/-- Stable insertion keeping longer keys first (`keys.sort((a,b) => b.length - a.length)`,
`content.js` line 131). -/
def insertByLen (k : List Char) : List (List Char) → List (List Char)
  | [] => [k]
  | x :: xs => if k.length ≤ x.length then x :: insertByLen k xs else k :: x :: xs

/-- Stable sort of the dictionary keys, longer first, so that no key shadows a
longer key containing it. -/
def sortKeys : List (List Char) → List (List Char)
  | [] => []
  | k :: ks => insertByLen k (sortKeys ks)

/-- `content.js` lines 127-146 (`buildRegexFromMap`): lower-case the keys, sort
longer-first, escape each with `reEscape` and compile the single alternation
`(^|[^\p{L}0-9])(k1|k2|…)((?:('s)|(?:ing|ed|es|s|er|est|ly))?)(?=[^\p{L}0-9]|$)`.
Because every key is escaped, compilation always succeeds; the embedded result
is the ordered key list the alternation tries.  A compile failure in the source
returns `null`, embedded as `none`. -/
def buildRegexFromMap (map : List (String × String)) : Option (List (List Char)) :=
  some (sortKeys (map.map (fun p => (lowerS p.1).toList)))

/-- Case-insensitive "the pattern piece `p` matches the front of `s`". -/
def leadsCI : List Char → List Char → Bool
  | [], _ => true
  | _ :: _, [] => false
  | p :: ps, c :: cs => (p.toLower == c.toLower) && leadsCI ps cs

/-- The lookahead `(?=[^\p{L}0-9]|$)` after the suffix group. -/
def lookOk : List Char → Bool
  | [] => true
  | c :: _ => !isWordChar c

/-- The suffix alternatives in the pattern's order:
`('s)|(?:ing|ed|es|s|er|est|ly)`. -/
def suffixAlts : List (List Char) :=
  [[apo, 's'], ['i', 'n', 'g'], ['e', 'd'], ['e', 's'], ['s'],
   ['e', 'r'], ['e', 's', 't'], ['l', 'y']]

/-- First alternative (in order) on which `f` succeeds — JS ordered-choice
alternation with backtracking into later alternatives. -/
def firstSome {α β : Type} (f : α → Option β) : List α → Option β
  | [] => none
  | a :: as =>
    match f a with
    | some b => some b
    | none => firstSome f as

/-- The pieces captured by one match of the compiled pattern: the boundary
producer group `(^|[^\p{L}0-9])`, the base key, and the suffix group. -/
structure MParts where
  pre : List Char
  base : List Char
  sfx : List Char
deriving Repr, DecidableEq

/-- Alternatives of the first group `(^|[^\p{L}0-9])` at this position: `^`
(empty, only at position 0) is tried before the one-character class. -/
def g1Alts (atStart : Bool) (s : List Char) : List (List Char) :=
  (if atStart then [([] : List Char)] else []) ++
  (match s with
   | c :: _ => if isWordChar c then [] else [[c]]
   | [] => [])

/-- Try the key alternation then the suffix group then the lookahead at `s1`,
with the pattern's backtracking order (keys longer-first; suffixes in pattern
order, then the empty suffix). -/
def tryKeysAt (keys : List (List Char)) (s1 : List Char) : Option (List Char × List Char) :=
  firstSome
    (fun k =>
      if leadsCI k s1 then
        let base := s1.take k.length
        let rest1 := s1.drop k.length
        match firstSome
            (fun alt =>
              if leadsCI alt rest1 && lookOk (rest1.drop alt.length) then
                some (rest1.take alt.length)
              else none)
            suffixAlts with
        | some sfx => some (base, sfx)
        | none => if lookOk rest1 then some (base, []) else none
      else none)
    keys

/-- Attempt a match of the whole compiled pattern starting at this position
(`atStart` = position 0, where `^` is available). -/
def tryMatchAt (keys : List (List Char)) (atStart : Bool) (s : List Char) : Option MParts :=
  firstSome
    (fun g1 =>
      match tryKeysAt keys (s.drop g1.length) with
      | some (base, sfx) => some ⟨g1, base, sfx⟩
      | none => none)
    (g1Alts atStart s)

/-- `content.js` lines 221-269: the replacement callback of
`replaceTextWithMapSync`.  Resolves the matched base case-insensitively in the
dictionary (a falsy value — absent or empty — leaves the full match unchanged),
re-inflects the replacement, preserves the base's casing, and re-capitalizes
the suffix when the matched suffix started upper-case. -/
def replaceMatch (map : List (String × String)) (pre base sfx : List Char) : List Char :=
  let fullMatch := pre ++ base ++ sfx
  if base.isEmpty then fullMatch
  else
    let lowBase := lowerS (String.mk base)
    let m1 := lookupMap map lowBase
    let mapped : Option String :=
      if jsFalsy m1 then
        match map.find? (fun p => lowerS p.1 == lowBase) with
        | some p => some p.2
        | none => none
      else m1
    if jsFalsy mapped then fullMatch
    else
      let r := mapped.getD ""
      let sfxS := String.mk sfx
      let transformed : String :=
        if sfx.isEmpty then ""
        else
          let low := lowerS sfxS
          if low == posS || low == posTyp then posS
          else if ["ing", "ed", "s", "es", "er", "est", "ly"].contains low then
            let cand := transformSuffixForReplacement r low
            if startsWithS (lowerS cand) (lowerS r) then dropS cand r.length else low
          else sfxS
      let preservedBase := preserveCaseReplace (String.mk base) r
      let finalSuffix : String :=
        if !transformed.toList.isEmpty && firstUpper sfxS then capFirst transformed
        else transformed
      pre ++ preservedBase.toList ++ finalSuffix.toList

/-- Global left-to-right scan of `String.replace(re, cb)` with the `g` flag:
at each position try a match; on success emit the callback's output and resume
after the match (advancing one character on an empty match, as JS does); on
failure copy one character.  `fuel` bounds the recursion (the initial call
passes the text length, which suffices since every step consumes a character). -/
def scanGo (keys : List (List Char)) (map : List (String × String)) :
    Nat → Bool → List Char → List Char
  | 0, _, s => s
  | _ + 1, _, [] => []
  | fuel + 1, atStart, c :: rest =>
    match tryMatchAt keys atStart (c :: rest) with
    | some parts =>
      let out := replaceMatch map parts.pre parts.base parts.sfx
      let n := parts.pre.length + parts.base.length + parts.sfx.length
      if n = 0 then out ++ c :: scanGo keys map fuel false rest
      else out ++ scanGo keys map fuel false ((c :: rest).drop n)
    | none => c :: scanGo keys map fuel false rest

/-- `content.js` lines 213-279 (`replaceTextWithMapSync`) with the compiled
regex made explicit (the source caches it in the global `AURA_RE`): falsy text
or an empty dictionary return the text unchanged (line 215); a failed compile
(`re` null, line 218) returns the text unchanged; otherwise the global
replacement scan runs. -/
def replaceTextWithMapSyncRE (re : Option (List (List Char))) (text : String)
    (map : List (String × String)) : String :=
  if text.toList.isEmpty || map.isEmpty then text
  else
    match re with
    | none => text
    | some keys => String.mk (scanGo keys map text.toList.length true text.toList)

/-- `replaceTextWithMapSync` as called with a freshly compiled pattern
(line 216: `if (!AURA_RE) AURA_RE = buildRegexFromMap(map)`). -/
def replaceTextWithMapSync (text : String) (map : List (String × String)) : String :=
  replaceTextWithMapSyncRE (buildRegexFromMap map) text map

/-! ## The tree state: text leaves, allow-listed attributes and the ledger

Text nodes are identified by an opaque `Nat` handle, attribute slots by an
(element handle, attribute name) pair — mirroring the source's `Map`s keyed by
node identity (`originalTextMap`, `originalAttrMap`).  An attribute value `""`
stands for an absent attribute, which the engine never touches
(`if (val && typeof val === 'string')`). -/

/-- `content.js` line 24: containers whose text is never rewritten. -/
def EMOTION_IGNORE_TAGS : List String :=
  ["SCRIPT", "STYLE", "NOSCRIPT", "IFRAME", "OBJECT", "VIDEO", "AUDIO",
   "CANVAS", "META", "LINK", "HEAD", "SVG"]

/-- `content.js` line 25: the allow-listed textual attributes. -/
def EMOTION_ATTRIBUTES : List String :=
  ["alt", "title", "placeholder", "aria-label", "aria-describedby"]

/-- The observable content state of the tree, plus the two snapshot ledgers.
`textAncestors` lists a text node's ancestor element tags from the immediate
parent outwards, so nesting inside a container is expressible. -/
structure Dom where
  textVal : Nat → String
  textConn : Nat → Bool
  textAncestors : Nat → List String
  textCE : Nat → Bool
  textLed : Nat → Option String
  attrVal : Nat × String → String
  attrConn : Nat × String → Bool
  attrLed : Nat × String → Option String

/-- The tag of the text node's immediate parent element
(`node.parentNode.nodeName`); `""` when the node has no parent. -/
def parentTagD (d : Dom) (id : Nat) : String := (d.textAncestors id).headD ""

/-- `content.js` lines 27-34 (`isEditable`) applied to a text node's parent
element: `isContentEditable` or an input/textarea/select tag. -/
def isEditableD (d : Dom) (id : Nat) : Bool :=
  d.textCE id || ["input", "textarea", "select"].contains (lowerS (parentTagD d id))

/-- Some ancestor of the text node is an excluded container tag. -/
def insideIgnoredContainer (d : Dom) (id : Nat) : Bool :=
  (d.textAncestors id).any (fun t => EMOTION_IGNORE_TAGS.contains t)

/-- The tree-walker filter of `runEmotionFilterOnNode` (`content.js` lines
405-413): reject empty or whitespace-only leaves, leaves whose immediate
parent is an ignored container tag, and leaves whose parent is editable.  The
source consults only `node.parentNode` — deeper ancestors are not checked. -/
def walkerAccepts (d : Dom) (id : Nat) : Bool :=
  !(d.textVal id).toList.isEmpty && !(trimL (d.textVal id).toList).isEmpty
    && !EMOTION_IGNORE_TAGS.contains (parentTagD d id) && !isEditableD d id

/-- First-write-wins update of one ledger cell
(`if (!originalTextMap.has(node)) originalTextMap.set(node, node.nodeValue)`,
`content.js` lines 57-71). -/
def saveFirstWrite (cell : Option String) (v : String) : Option String :=
  match cell with
  | some o => some o
  | none => some v

/-- One pointwise substitution pass over the text leaves selected by `cond`:
compute the replacement, and when it differs record the original
(first-write-wins) and write the new value — the shared shape of
`runEmotionFilterOnNode` and the text branch of `applyMapToNodeOrSubtree`. -/
def stepText (cond : Nat → Bool) (map : List (String × String)) (d : Dom) : Dom :=
  { d with
    textVal := fun id =>
      let newText := replaceTextWithMapSync (d.textVal id) map
      if cond id = true ∧ newText ≠ d.textVal id then newText else d.textVal id,
    textLed := fun id =>
      let newText := replaceTextWithMapSync (d.textVal id) map
      if cond id = true ∧ newText ≠ d.textVal id then
        saveFirstWrite (d.textLed id) (d.textVal id)
      else d.textLed id }

/-- One pointwise substitution pass over the attribute slots selected by
`cond` — the shared shape of `applyAttributesOnDocument` and the attribute
loop of `applyMapToNodeOrSubtree`. -/
def stepAttr (cond : Nat × String → Bool) (map : List (String × String)) (d : Dom) : Dom :=
  { d with
    attrVal := fun k =>
      let newVal := replaceTextWithMapSync (d.attrVal k) map
      if cond k = true ∧ newVal ≠ d.attrVal k then newVal else d.attrVal k,
    attrLed := fun k =>
      let newVal := replaceTextWithMapSync (d.attrVal k) map
      if cond k = true ∧ newVal ≠ d.attrVal k then
        saveFirstWrite (d.attrLed k) (d.attrVal k)
      else d.attrLed k }

/-- `content.js` lines 402-435 (`runEmotionFilterOnNode` from the document
body): rewrite every attached text leaf the walker filter accepts, saving
originals first-write-wins.  An empty map returns immediately (line 403). -/
def runEmotionFilterOnNode (map : List (String × String)) (d : Dom) : Dom :=
  if map.isEmpty then d
  else stepText (fun id => d.textConn id && walkerAccepts d id) map d

/-- `content.js` lines 455-478 (`applyAttributesOnDocument`): rewrite every
allow-listed, nonempty attribute of every attached element. -/
def applyAttributesOnDocument (map : List (String × String)) (d : Dom) : Dom :=
  stepAttr
    (fun k => d.attrConn k && EMOTION_ATTRIBUTES.contains k.2
      && !(d.attrVal k).toList.isEmpty) map d

/-- `content.js` lines 295-305: `applyMapToNodeOrSubtree` invoked directly on
a text node (the mutation observer's characterData path).  It replaces the
node's text with no walker filter — no ignored-tag and no editable check. -/
def applyMapToTextNode (map : List (String × String)) (id0 : Nat) (d : Dom) : Dom :=
  if map.isEmpty then d
  else stepText (fun id => id == id0) map d

/-- One substitution-engine pass, as reachable from the source's entry points. -/
inductive POp where
  | filter (map : List (String × String))
  | attrs (map : List (String × String))
  | node (id : Nat) (map : List (String × String))

/-- Dispatch one pass. -/
def applyPass : POp → Dom → Dom
  | .filter m, d => runEmotionFilterOnNode m d
  | .attrs m, d => applyAttributesOnDocument m d
  | .node id m, d => applyMapToTextNode m id d

/-- Apply a sequence of substitution passes. -/
def applyPasses : List POp → Dom → Dom
  | [], d => d
  | p :: ps, d => applyPasses ps (applyPass p d)

/-- `content.js` lines 73-118 (`restoreReplacements`): write every recorded
original back to its node when the node is still attached, silently drop
entries for detached nodes, and clear both ledgers. -/
def restoreReplacements (d : Dom) : Dom :=
  { textVal := fun id =>
      match d.textLed id with
      | some o => if d.textConn id then o else d.textVal id
      | none => d.textVal id,
    textConn := d.textConn,
    textAncestors := d.textAncestors,
    textCE := d.textCE,
    textLed := fun _ => none,
    attrVal := fun k =>
      match d.attrLed k with
      | some o => if d.attrConn k then o else d.attrVal k
      | none => d.attrVal k,
    attrConn := d.attrConn,
    attrLed := fun _ => none }

/-- The ledgers always hold the true pre-substitution content: a recorded
original equals the initial value, and an unrecorded cell is unmodified. -/
def Faithful (d0 d : Dom) : Prop :=
  (∀ id, d.textConn id = d0.textConn id) ∧
  (∀ id, match d.textLed id with
    | some o => o = d0.textVal id
    | none => d.textVal id = d0.textVal id) ∧
  (∀ k, d.attrConn k = d0.attrConn k) ∧
  (∀ k, match d.attrLed k with
    | some o => o = d0.attrVal k
    | none => d.attrVal k = d0.attrVal k)

/-! ## The mutation watcher's debounce -/

/-- The wait passed to `debounce` when the emotion mutation observer schedules
a re-application of the substitution engine (`content.js` line 335). -/
def emotionDebounceWaitMs : Nat := 300

/-- Semantics of `debounce(fn, w)` (`content.js` lines 285-293) over a sorted
trace of call times: each call clears the pending timer and re-arms it `w`
later, so a call's timer fires (at `t + w`) only when no later call arrives
before it.  Returns the firing times. -/
def debounceFires (w : Nat) : List Nat → List Nat
  | [] => []
  | [t] => [t + w]
  | t1 :: t2 :: r =>
    if t1 + w ≤ t2 then (t1 + w) :: debounceFires w (t2 :: r)
    else debounceFires w (t2 :: r)

/-! ## The chunk locator

Modelled from the spec: the Chunk Locator (`locate(chunkText,
approxGlobalOffset)`, spec §4.2) is not part of the sources under `src/`;
the definitions below follow the spec's fallback ladder: (1) windowed search
within ±8,000 characters of the approximate offset, (2) full-buffer search,
(3) search with the fragment's first 60 characters, (4) progressively
shrinking head search from 80 down to 12 characters in steps of 12, returning
`NOT_FOUND` (`none`) only when the length-12 head also matches nowhere. -/

/-- The pattern `pat` occurs in `hay` at index `i`. -/
def occursAt (hay pat : List Char) (i : Nat) : Prop :=
  (hay.drop i).take pat.length = pat

instance (hay pat : List Char) (i : Nat) : Decidable (occursAt hay pat i) :=
  inferInstanceAs (Decidable ((hay.drop i).take pat.length = pat))

/-- Index of the first occurrence of `pat` in `hay`. -/
def findAt (pat : List Char) : List Char → Option Nat
  | [] => if leadsB pat [] then some 0 else none
  | c :: t => if leadsB pat (c :: t) then some 0 else (findAt pat t).map (· + 1)

/-- Modelled from the spec: the shrinking-head lengths of fallback step 4. -/
def ladderLens : List Nat := [80, 68, 56, 44, 32, 20, 12]

/-- Modelled from the spec: try each head length in turn. -/
def ladder (buffer chunk : List Char) : List Nat → Option Nat
  | [] => none
  | n :: ns =>
    match findAt (chunk.take n) buffer with
    | some i => some i
    | none => ladder buffer chunk ns

/-- Modelled from the spec: the locator's fallback ladder over an explicit
window `[lo, hi)`; a hit inside the window is reported in buffer
coordinates. -/
def locateSteps (buffer chunk : List Char) (lo hi : Nat) : Option Nat :=
  match findAt chunk ((buffer.drop lo).take (hi - lo)) with
  | some i => some (lo + i)
  | none =>
    match findAt chunk buffer with
    | some i => some i
    | none =>
      match findAt (chunk.take 60) buffer with
      | some i => some i
      | none => ladder buffer chunk ladderLens

/-- Modelled from the spec: `locate(chunkText, approxGlobalOffset)` with its
fallback ladder; `none` is `NOT_FOUND`.  The window spans ±8,000 characters
around the approximate offset. -/
def locate (buffer chunk : List Char) (approx : Nat) : Option Nat :=
  locateSteps buffer chunk (approx - 8000) (approx + 8000)

/-! ## Concrete states used by witnesses and counterexamples -/

/-- A clean tree: one attached, editable-free text leaf family with no ledger
entries, plus empty attributes. -/
def domClean : Dom :=
  { textVal := fun _ => "I hate this",
    textConn := fun _ => true,
    textAncestors := fun _ => ["P", "BODY"],
    textCE := fun _ => false,
    textLed := fun _ => none,
    attrVal := fun _ => "mild hate speech",
    attrConn := fun _ => true,
    attrLed := fun _ => none }

/-- A tree whose text leaves sit inside a `TEXTAREA` (an editable field). -/
def domEditable : Dom :=
  { textVal := fun _ => "hate",
    textConn := fun _ => true,
    textAncestors := fun _ => ["TEXTAREA", "BODY"],
    textCE := fun _ => false,
    textLed := fun _ => none,
    attrVal := fun _ => "",
    attrConn := fun _ => true,
    attrLed := fun _ => none }

/-- A tree whose text leaf's parent is a `DIV` that itself sits inside an
excluded `OBJECT` container: the walker filter sees only the `DIV`. -/
def domNested : Dom :=
  { textVal := fun _ => "hate",
    textConn := fun _ => true,
    textAncestors := fun _ => ["DIV", "OBJECT", "BODY"],
    textCE := fun _ => false,
    textLed := fun _ => none,
    attrVal := fun _ => "",
    attrConn := fun _ => true,
    attrLed := fun _ => none }

/-- A tree with a pre-existing ledger entry recording `"orig"`. -/
def domLedgered : Dom :=
  { textVal := fun _ => "current",
    textConn := fun _ => true,
    textAncestors := fun _ => ["P", "BODY"],
    textCE := fun _ => false,
    textLed := fun _ => some "orig",
    attrVal := fun _ => "current attr",
    attrConn := fun _ => true,
    attrLed := fun _ => some "orig attr" }

/-! ## Helper lemmas -/

theorem mem_insertByLen (a k : List Char) (l : List (List Char))
    (h : a = k ∨ a ∈ l) : a ∈ insertByLen k l := by
  induction l with
  | nil => simp [insertByLen]; tauto
  | cons x xs ih =>
    unfold insertByLen
    rcases h with h | h
    · subst h
      split
      · exact List.mem_cons_of_mem _ (ih (Or.inl rfl))
      · exact List.mem_cons_self _ _
    · rcases List.mem_cons.mp h with h | h
      · subst h
        split
        · exact List.mem_cons_self _ _
        · exact List.mem_cons_of_mem _ (List.mem_cons_self _ _)
      · split
        · exact List.mem_cons_of_mem _ (ih (Or.inr h))
        · exact List.mem_cons_of_mem _ (List.mem_cons_of_mem _ h)

theorem mem_sortKeys (a : List Char) (l : List (List Char)) (h : a ∈ l) :
    a ∈ sortKeys l := by
  induction l with
  | nil => exact (List.not_mem_nil a h).elim
  | cons x xs ih =>
    unfold sortKeys
    rcases List.mem_cons.mp h with h | h
    · exact mem_insertByLen _ _ _ (Or.inl h)
    · exact mem_insertByLen _ _ _ (Or.inr (ih h))

theorem debounce_lastOnly (w : Nat) :
    ∀ (t : Nat) (ts : List Nat), List.Chain' (fun a b => b < a + w) (t :: ts) →
      debounceFires w (t :: ts) = [(t :: ts).getLast (List.cons_ne_nil t ts) + w] := by
  intro t ts
  induction ts generalizing t with
  | nil => intro _; rfl
  | cons t2 r ih =>
    intro h
    rcases List.chain'_cons.mp h with ⟨h1, h2⟩
    have hlt : ¬(t + w ≤ t2) := by omega
    calc debounceFires w (t :: t2 :: r)
        = debounceFires w (t2 :: r) := by
          simp only [debounceFires]
          rw [if_neg hlt]
      _ = [(t2 :: r).getLast (List.cons_ne_nil t2 r) + w] := ih t2 h2
      _ = [(t :: t2 :: r).getLast (List.cons_ne_nil t (t2 :: r)) + w] := by
          rw [List.getLast_cons (List.cons_ne_nil t2 r)]

/-! ## Claims about the substitution engine's text transformation -/

/-- C2 (counterexample): with the dictionary `{"hate": "dislike"}` the claim
says `"hated this"` becomes `"disliked this"`; the code leaves it unchanged,
because the compiled pattern matches a key followed by a literal suffix and
`"hated"` does not contain the key `"hate"` followed by any recognized
suffix. -/
theorem morphology_example_counterexample :
    replaceTextWithMapSync "hated this" [("hate", "dislike")] = "hated this" ∧
    ("hated this" : String) ≠ "disliked this" := by
  exact ⟨by decide, by decide⟩

/-- C2 (amended): with the dictionary `{"hate": "dislike"}`, `"I HATE this"`
maps to `"I DISLIKE this"` and `"hates this"` maps to `"dislikes this"`, while
`"hated this"` and `"hating this"` are left unchanged (the inflected forms of
an `e`-final key do not contain the key verbatim, so the pattern cannot match
them). -/
theorem morphology_example :
    replaceTextWithMapSync "I HATE this" [("hate", "dislike")] = "I DISLIKE this" ∧
    replaceTextWithMapSync "hated this" [("hate", "dislike")] = "hated this" ∧
    replaceTextWithMapSync "hating this" [("hate", "dislike")] = "hating this" ∧
    replaceTextWithMapSync "hates this" [("hate", "dislike")] = "dislikes this" := by
  exact ⟨by decide, by decide, by decide, by decide⟩

/-- C5 (counterexample): the claim says a match that is neither all-caps nor
title-case yields a lower-cased replacement; the code returns the dictionary's
replacement verbatim.  With the lowercase match `"hate"` and the replacement
`"Dislike"` the code produces `"Dislike"`, not the lower-cased `"dislike"`. -/
theorem case_preservation_counterexample :
    replaceTextWithMapSync "hate" [("hate", "Dislike")] = "Dislike" ∧
    ("Dislike" : String) ≠ "dislike" := by
  exact ⟨by decide, by decide⟩

/-- C5 (amended): `preserveCaseReplace` maps an all-upper-case match to the
upper-cased replacement, a title-case match (first letter upper, rest already
lower) to the replacement with its first letter capitalized, and any other
match to the replacement verbatim as supplied by the dictionary (it is not
lower-cased). -/
theorem case_preservation (m r : String) (hm : m.toList ≠ []) (hr : r.toList ≠ []) :
    (upperS m = m → preserveCaseReplace m r = upperS r) ∧
    (upperS m ≠ m → firstUpper m = true → lowerS (dropS m 1) = dropS m 1 →
      preserveCaseReplace m r = capFirst r) ∧
    (upperS m ≠ m → ¬(firstUpper m = true ∧ lowerS (dropS m 1) = dropS m 1) →
      preserveCaseReplace m r = r) := by
  unfold preserveCaseReplace
  refine ⟨?_, ?_, ?_⟩
  · intro h
    rw [if_neg (by tauto), if_pos h]
  · intro h h1 h2
    rw [if_neg (by tauto), if_neg h, if_pos ⟨h1, h2⟩]
  · intro h h2
    rw [if_neg (by tauto), if_neg h, if_neg h2]

/-- C5 (witness): applying `case_preservation` at the all-caps match `"HATE"`
with replacement `"dislike"`. -/
theorem case_preservation_witness :
    preserveCaseReplace "HATE" "dislike" = upperS "dislike" :=
  (case_preservation "HATE" "dislike" (by decide) (by decide)).1 (by decide)

/-- C8 (counterexample): the claim says a malformed key is excluded on its own
and the rest of the dictionary still applies.  In the code a pattern-compile
failure makes `buildRegexFromMap` return `null` and `replaceTextWithMapSync`
then changes nothing (line 218): with the compiled pattern absent, even the
well-formed key `"hate"` is not applied, although applying it would have
changed the text. -/
theorem pattern_failure_counterexample :
    replaceTextWithMapSyncRE none "I hate this" [("hate", "dislike")] = "I hate this" ∧
    replaceTextWithMapSync "I hate this" [("hate", "dislike")] = "I dislike this" := by
  exact ⟨by decide, by decide⟩

/-- C8 (amended): no individual dictionary key is ever excluded — `reEscape`
escapes every metacharacter, `buildRegexFromMap` always compiles a pattern
containing every (lower-cased) key — and when compilation nevertheless fails
the engine disables substitution for the whole dictionary, leaving every text
unchanged. -/
theorem pattern_compile_allOrNothing :
    (∀ map : List (String × String),
      ∃ ks, buildRegexFromMap map = some ks ∧ ∀ p ∈ map, (lowerS p.1).toList ∈ ks) ∧
    (∀ (text : String) (map : List (String × String)),
      replaceTextWithMapSyncRE none text map = text) := by
  constructor
  · intro map
    refine ⟨_, rfl, ?_⟩
    intro p hp
    exact mem_sortKeys _ _ (List.mem_map_of_mem _ hp)
  · intro text map
    unfold replaceTextWithMapSyncRE
    split <;> rfl

/-- C8 (witness): applying `pattern_compile_allOrNothing` with a failed
compile on a concrete dictionary: nothing is substituted. -/
theorem pattern_compile_allOrNothing_witness :
    replaceTextWithMapSyncRE none "I hate this" [("hate", "dislike")] = "I hate this" :=
  pattern_compile_allOrNothing.2 "I hate this" [("hate", "dislike")]

/-- C9 (counterexample): the claim says the coalescing window is approximately
200–250 ms; the observer's debounce wait (`content.js` line 335) is 300 ms,
outside that range. -/
theorem mutation_debounce_window_counterexample :
    emotionDebounceWaitMs = 300 ∧
    ¬(200 ≤ emotionDebounceWaitMs ∧ emotionDebounceWaitMs ≤ 250) := by
  decide

/-- C9 (amended): re-application of the substitution engine after mutation
batches is debounced with a 300 ms coalescing window, and when every call of
a burst arrives within the window of its predecessor, only the most recently
scheduled application executes (every earlier pending one is canceled). -/
theorem mutation_debounce_window :
    emotionDebounceWaitMs = 300 ∧
    ∀ (t : Nat) (ts : List Nat),
      List.Chain' (fun a b => b < a + emotionDebounceWaitMs) (t :: ts) →
      debounceFires emotionDebounceWaitMs (t :: ts) =
        [(t :: ts).getLast (List.cons_ne_nil t ts) + emotionDebounceWaitMs] :=
  ⟨rfl, fun t ts h => debounce_lastOnly emotionDebounceWaitMs t ts h⟩

/-- C9 (witness): a burst at 0 ms, 100 ms, 200 ms coalesces into one
execution, of the last scheduled call, at 500 ms. -/
theorem mutation_debounce_window_witness :
    debounceFires emotionDebounceWaitMs [0, 100, 200] = [500] := by
  have h := mutation_debounce_window.2 0 [100, 200]
    (by norm_num [List.chain'_cons, emotionDebounceWaitMs])
  exact h.trans (by decide)

/-! ## Ledger and restore lemmas -/

theorem stepText_cases (c : Nat → Bool) (map : List (String × String)) (d : Dom) (id : Nat) :
    ((stepText c map d).textVal id = d.textVal id ∧
      (stepText c map d).textLed id = d.textLed id)
  ∨ ((stepText c map d).textVal id ≠ d.textVal id ∧
      (stepText c map d).textLed id = saveFirstWrite (d.textLed id) (d.textVal id)) := by
  by_cases h : c id = true ∧ replaceTextWithMapSync (d.textVal id) map ≠ d.textVal id
  · right
    constructor
    · show (if c id = true ∧ replaceTextWithMapSync (d.textVal id) map ≠ d.textVal id
          then replaceTextWithMapSync (d.textVal id) map else d.textVal id) ≠ d.textVal id
      rw [if_pos h]; exact h.2
    · show (if c id = true ∧ replaceTextWithMapSync (d.textVal id) map ≠ d.textVal id
          then saveFirstWrite (d.textLed id) (d.textVal id) else d.textLed id) = _
      rw [if_pos h]
  · left
    constructor
    · show (if c id = true ∧ replaceTextWithMapSync (d.textVal id) map ≠ d.textVal id
          then replaceTextWithMapSync (d.textVal id) map else d.textVal id) = d.textVal id
      rw [if_neg h]
    · show (if c id = true ∧ replaceTextWithMapSync (d.textVal id) map ≠ d.textVal id
          then saveFirstWrite (d.textLed id) (d.textVal id) else d.textLed id) = d.textLed id
      rw [if_neg h]

theorem stepAttr_cases (c : Nat × String → Bool) (map : List (String × String))
    (d : Dom) (k : Nat × String) :
    ((stepAttr c map d).attrVal k = d.attrVal k ∧
      (stepAttr c map d).attrLed k = d.attrLed k)
  ∨ ((stepAttr c map d).attrVal k ≠ d.attrVal k ∧
      (stepAttr c map d).attrLed k = saveFirstWrite (d.attrLed k) (d.attrVal k)) := by
  by_cases h : c k = true ∧ replaceTextWithMapSync (d.attrVal k) map ≠ d.attrVal k
  · right
    constructor
    · show (if c k = true ∧ replaceTextWithMapSync (d.attrVal k) map ≠ d.attrVal k
          then replaceTextWithMapSync (d.attrVal k) map else d.attrVal k) ≠ d.attrVal k
      rw [if_pos h]; exact h.2
    · show (if c k = true ∧ replaceTextWithMapSync (d.attrVal k) map ≠ d.attrVal k
          then saveFirstWrite (d.attrLed k) (d.attrVal k) else d.attrLed k) = _
      rw [if_pos h]
  · left
    constructor
    · show (if c k = true ∧ replaceTextWithMapSync (d.attrVal k) map ≠ d.attrVal k
          then replaceTextWithMapSync (d.attrVal k) map else d.attrVal k) = d.attrVal k
      rw [if_neg h]
    · show (if c k = true ∧ replaceTextWithMapSync (d.attrVal k) map ≠ d.attrVal k
          then saveFirstWrite (d.attrLed k) (d.attrVal k) else d.attrLed k) = d.attrLed k
      rw [if_neg h]

theorem stepText_val_of_cond_false (c : Nat → Bool) (map : List (String × String))
    (d : Dom) (id : Nat) (h : c id = false) :
    (stepText c map d).textVal id = d.textVal id := by
  show (if c id = true ∧ replaceTextWithMapSync (d.textVal id) map ≠ d.textVal id
      then replaceTextWithMapSync (d.textVal id) map else d.textVal id) = d.textVal id
  rw [if_neg]
  rintro ⟨hc, -⟩
  rw [h] at hc
  exact Bool.false_ne_true hc

theorem applyPass_textCases (p : POp) (d : Dom) (id : Nat) :
    ((applyPass p d).textVal id = d.textVal id ∧
      (applyPass p d).textLed id = d.textLed id)
  ∨ ((applyPass p d).textVal id ≠ d.textVal id ∧
      (applyPass p d).textLed id = saveFirstWrite (d.textLed id) (d.textVal id)) := by
  cases p with
  | filter m =>
    simp only [applyPass]
    unfold runEmotionFilterOnNode
    split
    · exact Or.inl ⟨rfl, rfl⟩
    · exact stepText_cases _ _ _ _
  | attrs m => exact Or.inl ⟨rfl, rfl⟩
  | node i m =>
    simp only [applyPass]
    unfold applyMapToTextNode
    split
    · exact Or.inl ⟨rfl, rfl⟩
    · exact stepText_cases _ _ _ _

theorem applyPass_attrCases (p : POp) (d : Dom) (k : Nat × String) :
    ((applyPass p d).attrVal k = d.attrVal k ∧
      (applyPass p d).attrLed k = d.attrLed k)
  ∨ ((applyPass p d).attrVal k ≠ d.attrVal k ∧
      (applyPass p d).attrLed k = saveFirstWrite (d.attrLed k) (d.attrVal k)) := by
  cases p with
  | filter m =>
    simp only [applyPass]
    unfold runEmotionFilterOnNode
    split
    · exact Or.inl ⟨rfl, rfl⟩
    · exact Or.inl ⟨rfl, rfl⟩
  | attrs m => exact stepAttr_cases _ _ _ _
  | node i m =>
    simp only [applyPass]
    unfold applyMapToTextNode
    split
    · exact Or.inl ⟨rfl, rfl⟩
    · exact Or.inl ⟨rfl, rfl⟩

theorem applyPass_conn (p : POp) (d : Dom) :
    (applyPass p d).textConn = d.textConn ∧ (applyPass p d).attrConn = d.attrConn := by
  cases p with
  | filter m =>
    simp only [applyPass]
    unfold runEmotionFilterOnNode
    split
    · exact ⟨rfl, rfl⟩
    · exact ⟨rfl, rfl⟩
  | attrs m => exact ⟨rfl, rfl⟩
  | node i m =>
    simp only [applyPass]
    unfold applyMapToTextNode
    split
    · exact ⟨rfl, rfl⟩
    · exact ⟨rfl, rfl⟩

theorem faithful_clean (d0 : Dom) (hT : ∀ id, d0.textLed id = none)
    (hA : ∀ k, d0.attrLed k = none) : Faithful d0 d0 := by
  refine ⟨fun _ => rfl, ?_, fun _ => rfl, ?_⟩
  · intro id
    rw [hT id]
  · intro k
    rw [hA k]

theorem faithful_applyPass (d0 d : Dom) (p : POp) (h : Faithful d0 d) :
    Faithful d0 (applyPass p d) := by
  obtain ⟨hc, hl, hac, hal⟩ := h
  refine ⟨?_, ?_, ?_, ?_⟩
  · intro id
    rw [(applyPass_conn p d).1]
    exact hc id
  · intro id
    have hm := hl id
    rcases applyPass_textCases p d id with ⟨hv, hl2⟩ | ⟨hv, hl2⟩
    · rw [hl2, hv]
      exact hm
    · rw [hl2]
      cases hx : d.textLed id with
      | some o =>
        rw [hx] at hm
        simpa [saveFirstWrite] using hm
      | none =>
        rw [hx] at hm
        simpa [saveFirstWrite] using hm
  · intro k
    rw [(applyPass_conn p d).2]
    exact hac k
  · intro k
    have hm := hal k
    rcases applyPass_attrCases p d k with ⟨hv, hl2⟩ | ⟨hv, hl2⟩
    · rw [hl2, hv]
      exact hm
    · rw [hl2]
      cases hx : d.attrLed k with
      | some o =>
        rw [hx] at hm
        simpa [saveFirstWrite] using hm
      | none =>
        rw [hx] at hm
        simpa [saveFirstWrite] using hm

theorem faithful_applyPasses (ops : List POp) (d0 d : Dom) (h : Faithful d0 d) :
    Faithful d0 (applyPasses ops d) := by
  induction ops generalizing d with
  | nil => exact h
  | cons p ps ih => exact ih (applyPass p d) (faithful_applyPass d0 d p h)

theorem restore_textVal (d : Dom) (id : Nat) :
    (restoreReplacements d).textVal id =
      match d.textLed id with
      | some o => if d.textConn id then o else d.textVal id
      | none => d.textVal id := rfl

theorem restore_attrVal (d : Dom) (k : Nat × String) :
    (restoreReplacements d).attrVal k =
      match d.attrLed k with
      | some o => if d.attrConn k then o else d.attrVal k
      | none => d.attrVal k := rfl

/-! ## Claims about the ledger and restore -/

/-- C1: for every tree content state with empty ledgers, applying any
sequence of substitution passes (full walker passes, attribute passes, and
direct observer passes, each with an arbitrary dictionary) followed by
`restoreReplacements` reproduces the original text and attribute values at
every node still attached to the tree. -/
theorem substitution_restore_roundtrip (ops : List POp) (d0 : Dom)
    (hT : ∀ id, d0.textLed id = none) (hA : ∀ k, d0.attrLed k = none) :
    (∀ id, d0.textConn id = true →
      (restoreReplacements (applyPasses ops d0)).textVal id = d0.textVal id) ∧
    (∀ k, d0.attrConn k = true →
      (restoreReplacements (applyPasses ops d0)).attrVal k = d0.attrVal k) := by
  obtain ⟨hc, hl, hac, hal⟩ :=
    faithful_applyPasses ops d0 d0 (faithful_clean d0 hT hA)
  constructor
  · intro id hid
    have hcon : (applyPasses ops d0).textConn id = true := (hc id).trans hid
    have hm := hl id
    rw [restore_textVal]
    cases hx : (applyPasses ops d0).textLed id with
    | some o =>
      rw [hx] at hm
      rw [hcon]
      simpa using hm
    | none =>
      rw [hx] at hm
      exact hm
  · intro k hk
    have hcon : (applyPasses ops d0).attrConn k = true := (hac k).trans hk
    have hm := hal k
    rw [restore_attrVal]
    cases hx : (applyPasses ops d0).attrLed k with
    | some o =>
      rw [hx] at hm
      rw [hcon]
      simpa using hm
    | none =>
      rw [hx] at hm
      exact hm

/-- C1 (witness): applying `substitution_restore_roundtrip` to a concrete
tree and one full pass with the dictionary `{"hate": "dislike"}`. -/
theorem substitution_restore_roundtrip_witness :
    (restoreReplacements (applyPasses [POp.filter [("hate", "dislike")]] domClean)).textVal 0
      = "I hate this" := by
  have h := (substitution_restore_roundtrip [POp.filter [("hate", "dislike")]] domClean
    (fun _ => rfl) (fun _ => rfl)).1 0 rfl
  exact h

/-- C3: for every text leaf and every (element, attribute) pair, a pass of
the substitution engine creates a ledger entry — holding the pre-pass value —
exactly when it modifies a cell that has no entry yet, and never overwrites an
existing entry (first-write-wins). -/
theorem ledger_first_write_wins (p : POp) (d : Dom) :
    (∀ id o, d.textLed id = some o → (applyPass p d).textLed id = some o) ∧
    (∀ id, d.textLed id = none → (applyPass p d).textVal id ≠ d.textVal id →
      (applyPass p d).textLed id = some (d.textVal id)) ∧
    (∀ id, d.textLed id = none → (applyPass p d).textVal id = d.textVal id →
      (applyPass p d).textLed id = none) ∧
    (∀ k o, d.attrLed k = some o → (applyPass p d).attrLed k = some o) ∧
    (∀ k, d.attrLed k = none → (applyPass p d).attrVal k ≠ d.attrVal k →
      (applyPass p d).attrLed k = some (d.attrVal k)) ∧
    (∀ k, d.attrLed k = none → (applyPass p d).attrVal k = d.attrVal k →
      (applyPass p d).attrLed k = none) := by
  refine ⟨?_, ?_, ?_, ?_, ?_, ?_⟩
  · intro id o h
    rcases applyPass_textCases p d id with ⟨_, hl⟩ | ⟨_, hl⟩
    · rw [hl, h]
    · rw [hl, h]
      rfl
  · intro id hnone hmod
    rcases applyPass_textCases p d id with ⟨hv, _⟩ | ⟨_, hl⟩
    · exact absurd hv hmod
    · rw [hl, hnone]
      rfl
  · intro id hnone hsame
    rcases applyPass_textCases p d id with ⟨_, hl⟩ | ⟨hv, _⟩
    · rw [hl]
      exact hnone
    · exact absurd hsame hv
  · intro k o h
    rcases applyPass_attrCases p d k with ⟨_, hl⟩ | ⟨_, hl⟩
    · rw [hl, h]
    · rw [hl, h]
      rfl
  · intro k hnone hmod
    rcases applyPass_attrCases p d k with ⟨hv, _⟩ | ⟨_, hl⟩
    · exact absurd hv hmod
    · rw [hl, hnone]
      rfl
  · intro k hnone hsame
    rcases applyPass_attrCases p d k with ⟨_, hl⟩ | ⟨hv, _⟩
    · rw [hl]
      exact hnone
    · exact absurd hsame hv

/-- C3 (witness): applying `ledger_first_write_wins` to a tree with an
existing entry `"orig"`: a further full pass does not overwrite it. -/
theorem ledger_first_write_wins_witness :
    (applyPass (POp.filter [("hate", "dislike")]) domLedgered).textLed 0 = some "orig" :=
  (ledger_first_write_wins (POp.filter [("hate", "dislike")]) domLedgered).1 0 "orig" rfl

/-- C4: `restoreReplacements` writes the recorded original back for every
ledger entry whose node is still attached, leaves detached nodes' current
values untouched (entries are dropped without effect), clears both ledgers,
and is a no-op on a state whose ledgers are empty. -/
theorem restore_spec (d : Dom) :
    (∀ id o, d.textLed id = some o → d.textConn id = true →
      (restoreReplacements d).textVal id = o) ∧
    (∀ id, d.textConn id = false →
      (restoreReplacements d).textVal id = d.textVal id) ∧
    (∀ id, (restoreReplacements d).textLed id = none) ∧
    (∀ k o, d.attrLed k = some o → d.attrConn k = true →
      (restoreReplacements d).attrVal k = o) ∧
    (∀ k, d.attrConn k = false →
      (restoreReplacements d).attrVal k = d.attrVal k) ∧
    (∀ k, (restoreReplacements d).attrLed k = none) ∧
    ((∀ id, d.textLed id = none) → (∀ k, d.attrLed k = none) →
      restoreReplacements d = d) := by
  refine ⟨?_, ?_, fun _ => rfl, ?_, ?_, fun _ => rfl, ?_⟩
  · intro id o h hcon
    rw [restore_textVal, h, hcon]
    simp
  · intro id hcon
    rw [restore_textVal]
    cases hx : d.textLed id with
    | some o =>
      rw [hcon]
      simp
    | none => rfl
  · intro k o h hcon
    rw [restore_attrVal, h, hcon]
    simp
  · intro k hcon
    rw [restore_attrVal]
    cases hx : d.attrLed k with
    | some o =>
      rw [hcon]
      simp
    | none => rfl
  · intro hT hA
    cases d with
    | mk tv tc tt tce tl av ac al =>
      unfold restoreReplacements
      simp only [Dom.mk.injEq]
      refine ⟨?_, trivial, trivial, trivial, ?_, ?_, trivial, ?_⟩
      · funext id
        simp only at hT
        rw [hT id]
      · funext id
        simp only at hT
        rw [hT id]
      · funext k
        simp only at hA
        rw [hA k]
      · funext k
        simp only at hA
        rw [hA k]

/-- C4 (witness): applying `restore_spec` to a concrete ledgered tree: the
attached node's entry `"orig"` is written back. -/
theorem restore_spec_witness :
    (restoreReplacements domLedgered).textVal 0 = "orig" :=
  (restore_spec domLedgered).1 0 "orig" rfl rfl

/-- C6 (counterexample): two concrete refutations of the claim.  The direct
text-node path of `applyMapToNodeOrSubtree` — the one the mutation observer
uses for characterData changes — performs no exclusion checks and rewrites a
node inside a `TEXTAREA`.  And the walker filter of `runEmotionFilterOnNode`
consults only the node's immediate parent tag (`node.parentNode.nodeName`,
lines 408-410), so the full walker pass rewrites a text node whose parent is
a `DIV` nested inside an excluded `OBJECT` container. -/
theorem observer_path_ignores_exclusions :
    (isEditableD domEditable 0 = true ∧
      domEditable.textVal 0 = "hate" ∧
      (applyPass (POp.node 0 [("hate", "dislike")]) domEditable).textVal 0 = "dislike" ∧
      ("dislike" : String) ≠ "hate") ∧
    (insideIgnoredContainer domNested 0 = true ∧
      domNested.textVal 0 = "hate" ∧
      (runEmotionFilterOnNode [("hate", "dislike")] domNested).textVal 0 = "dislike") := by
  exact ⟨⟨by decide, by decide, by decide, by decide⟩, by decide, by decide, by decide⟩

/-- C6 (amended): the full walker pass (`runEmotionFilterOnNode`) never
modifies a text node whose immediate parent is an ignored container tag or an
editable field — the filter checks only `node.parentNode`, so a text node
nested deeper inside an excluded container can still be modified — and the
direct text-node path of `applyMapToNodeOrSubtree` (used by the mutation
observer) performs no checks at all. -/
theorem substitution_skips_excluded (map : List (String × String)) (d : Dom) (id : Nat)
    (h : EMOTION_IGNORE_TAGS.contains (parentTagD d id) = true ∨ isEditableD d id = true) :
    (runEmotionFilterOnNode map d).textVal id = d.textVal id := by
  have hwa : walkerAccepts d id = false := by
    unfold walkerAccepts
    rcases h with h | h
    · simp only [Bool.and_eq_false_iff]
      have hmem : parentTagD d id ∈ EMOTION_IGNORE_TAGS := by simpa using h
      simp [hmem]
    · simp [h]
  unfold runEmotionFilterOnNode
  split
  · rfl
  · exact stepText_val_of_cond_false _ _ _ _ (by simp [hwa])

/-- C6 (witness): applying `substitution_skips_excluded` to the `TEXTAREA`
tree: the full walker pass leaves the editable node's text unchanged. -/
theorem substitution_skips_excluded_witness :
    (runEmotionFilterOnNode [("hate", "dislike")] domEditable).textVal 0 = "hate" := by
  have h := substitution_skips_excluded [("hate", "dislike")] domEditable 0
    (Or.inr (by decide))
  exact h

/-! ## The replacement scan rebuilds the text it matched -/

theorem firstSome_some {α β : Type} (f : α → Option β) (l : List α) (b : β)
    (h : firstSome f l = some b) : ∃ a, a ∈ l ∧ f a = some b := by
  induction l with
  | nil => exact absurd h (by simp [firstSome])
  | cons x xs ih =>
    unfold firstSome at h
    cases hx : f x with
    | some y =>
      rw [hx] at h
      exact ⟨x, List.mem_cons_self x xs, hx.trans h⟩
    | none =>
      rw [hx] at h
      obtain ⟨a, ha, hfa⟩ := ih h
      exact ⟨a, List.mem_cons_of_mem x ha, hfa⟩

theorem leadsCI_length (p s : List Char) (h : leadsCI p s = true) :
    p.length ≤ s.length := by
  induction p generalizing s with
  | nil => exact Nat.zero_le _
  | cons c cs ih =>
    cases s with
    | nil => exact absurd h (by simp [leadsCI])
    | cons x xs =>
      unfold leadsCI at h
      have hrec := ih xs (by
        cases hb : leadsCI cs xs
        · rw [hb] at h
          simp at h
        · rfl)
      simp only [List.length_cons]
      exact Nat.succ_le_succ hrec

theorem g1Alts_take (atStart : Bool) (s g1 : List Char) (h : g1 ∈ g1Alts atStart s) :
    g1 = s.take g1.length := by
  unfold g1Alts at h
  rcases List.mem_append.mp h with h | h
  · have : g1 = [] := by
      cases atStart
      · simp at h
      · simp at h
        exact h
    simp [this]
  · cases s with
    | nil => simp at h
    | cons c rest =>
      by_cases hw : isWordChar c = true
      · simp [hw] at h
      · have hg : g1 = [c] := by
          simp only [Bool.not_eq_true] at hw
          simpa [hw] using h
        simp [hg]

theorem tryKeysAt_take (keys : List (List Char)) (s1 b f : List Char)
    (h : tryKeysAt keys s1 = some (b, f)) :
    b ++ f = s1.take (b.length + f.length) := by
  obtain ⟨k, _, hk⟩ := firstSome_some _ _ _ h
  by_cases hci : leadsCI k s1 = true
  · rw [if_pos hci] at hk
    dsimp only at hk
    have hkl : k.length ≤ s1.length := leadsCI_length _ _ hci
    cases hsf : firstSome
        (fun alt =>
          if leadsCI alt (s1.drop k.length) && lookOk ((s1.drop k.length).drop alt.length) then
            some ((s1.drop k.length).take alt.length)
          else none)
        suffixAlts with
    | some sfx =>
      rw [hsf] at hk
      obtain ⟨hb, hf⟩ : b = s1.take k.length ∧ f = sfx := by
        have := hk
        simp only [Option.some.injEq, Prod.mk.injEq] at this
        exact ⟨this.1.symm, this.2.symm⟩
      obtain ⟨alt, _, halt⟩ := firstSome_some _ _ _ hsf
      by_cases hca : (leadsCI alt (s1.drop k.length)
          && lookOk ((s1.drop k.length).drop alt.length)) = true
      · rw [if_pos hca] at halt
        have hcl : leadsCI alt (s1.drop k.length) = true := by
          have hca2 := hca
          simp only [Bool.and_eq_true] at hca2
          exact hca2.1
        have hall : alt.length ≤ (s1.drop k.length).length := leadsCI_length _ _ hcl
        have hsfx : sfx = (s1.drop k.length).take alt.length := by
          simpa using halt.symm
        rw [hb, hf, hsfx, List.length_take, List.length_take,
          Nat.min_eq_left hkl, Nat.min_eq_left hall]
        exact (List.take_add s1 k.length alt.length).symm
      · rw [if_neg (by simpa using hca)] at halt
        exact absurd halt (by simp)
    | none =>
      rw [hsf] at hk
      by_cases hlo : lookOk (s1.drop k.length) = true
      · rw [if_pos hlo] at hk
        obtain ⟨hb, hf⟩ : b = s1.take k.length ∧ f = [] := by
          have := hk
          simp only [Option.some.injEq, Prod.mk.injEq] at this
          exact ⟨this.1.symm, this.2.symm⟩
        rw [hb, hf, List.length_take, Nat.min_eq_left hkl]
        simp
      · rw [if_neg (by simpa using hlo)] at hk
        exact absurd hk (by simp)
  · rw [if_neg (by simpa using hci)] at hk
    exact absurd hk (by simp)

theorem tryMatchAt_take (keys : List (List Char)) (atStart : Bool) (s : List Char)
    (parts : MParts) (h : tryMatchAt keys atStart s = some parts) :
    parts.pre ++ parts.base ++ parts.sfx =
      s.take (parts.pre.length + parts.base.length + parts.sfx.length) := by
  obtain ⟨g1, hg1, hf⟩ := firstSome_some _ _ _ h
  cases htk : tryKeysAt keys (s.drop g1.length) with
  | none =>
    rw [htk] at hf
    exact absurd hf (by simp)
  | some bf =>
    rw [htk] at hf
    obtain ⟨b, f⟩ := bf
    have hp : parts = ⟨g1, b, f⟩ := by
      have := hf
      simp only [Option.some.injEq] at this
      exact this.symm
    subst hp
    have hbf : b ++ f = (s.drop g1.length).take (b.length + f.length) :=
      tryKeysAt_take _ _ _ _ htk
    have hg : g1 = s.take g1.length := g1Alts_take _ _ _ hg1
    show g1 ++ b ++ f = s.take (g1.length + b.length + f.length)
    calc g1 ++ b ++ f = g1 ++ (b ++ f) := by rw [List.append_assoc]
      _ = s.take g1.length ++ (s.drop g1.length).take (b.length + f.length) := by
          rw [← hg, hbf]
      _ = s.take (g1.length + (b.length + f.length)) := (List.take_add s _ _).symm
      _ = s.take (g1.length + b.length + f.length) := by rw [Nat.add_assoc]

theorem scanGo_id (keys : List (List Char)) (map : List (String × String))
    (hcb : ∀ pre base sfx, replaceMatch map pre base sfx = pre ++ base ++ sfx) :
    ∀ (fuel : Nat) (atStart : Bool) (s : List Char), scanGo keys map fuel atStart s = s := by
  intro fuel
  induction fuel with
  | zero => intro _ s; rfl
  | succ n ih =>
    intro atStart s
    cases s with
    | nil => rfl
    | cons c rest =>
      simp only [scanGo]
      cases h : tryMatchAt keys atStart (c :: rest) with
      | none => rw [ih]
      | some parts =>
        dsimp only
        have htake := tryMatchAt_take _ _ _ _ h
        by_cases hn : parts.pre.length + parts.base.length + parts.sfx.length = 0
        · rw [if_pos hn]
          have he : parts.pre = [] ∧ parts.base = [] ∧ parts.sfx = [] := by
            refine ⟨?_, ?_, ?_⟩ <;> rw [← List.length_eq_zero] <;> omega
          rw [hcb, he.1, he.2.1, he.2.2]
          simp [ih]
        · rw [if_neg hn]
          rw [hcb, htake, ih]
          exact List.take_append_drop _ _

theorem replaceMatch_of_empty_vals (map : List (String × String))
    (hv : ∀ p ∈ map, p.2 = "") (pre base sfx : List Char) :
    replaceMatch map pre base sfx = pre ++ base ++ sfx := by
  have hlk : ∀ x, jsFalsy (lookupMap map x) = true := by
    intro x
    unfold lookupMap
    cases hf : map.find? (fun p => p.1 == x) with
    | none => rfl
    | some q =>
      have hq := hv q (List.mem_of_find?_eq_some hf)
      simp only [Option.map_some', jsFalsy, hq]
      decide
  have hfb : ∀ x, jsFalsy (match map.find? (fun p => lowerS p.1 == x) with
      | some p => some p.2
      | none => none) = true := by
    intro x
    cases hf : map.find? (fun p => lowerS p.1 == x) with
    | none => rfl
    | some q =>
      have hq := hv q (List.mem_of_find?_eq_some hf)
      simp only [jsFalsy, hq]
      decide
  cases base with
  | nil => rfl
  | cons c bs =>
    simp only [replaceMatch, List.isEmpty, Bool.false_eq_true, if_false]
    rw [hlk (lowerS (String.mk (c :: bs)))]
    simp only [if_true]
    rw [hfb (lowerS (String.mk (c :: bs)))]
    simp

/-- C10: an empty replacement value never deletes the matched word — the
replacement callback emits the full match unchanged whenever the matched
base's dictionary value is the empty string (which JS treats as falsy at
lines 227 and 232), and a dictionary all of whose values are empty leaves
every input text unchanged. -/
theorem empty_replacement_never_deletes :
    (∀ (map : List (String × String)) (pre base sfx : List Char),
      (∀ p ∈ map, lowerS p.1 = p.1) →
      lookupMap map (lowerS (String.mk base)) = some "" →
      replaceMatch map pre base sfx = pre ++ base ++ sfx) ∧
    (∀ (text : String) (map : List (String × String)),
      (∀ p ∈ map, p.2 = "") → replaceTextWithMapSync text map = text) := by
  constructor
  · intro map pre base sfx hk hl
    cases base with
    | nil => rfl
    | cons c bs =>
      have hfind : map.find? (fun p => lowerS p.1 == lowerS (String.mk (c :: bs)))
          = map.find? (fun p => p.1 == lowerS (String.mk (c :: bs))) := by
        induction map with
        | nil => rfl
        | cons q qs ih =>
          have hq : lowerS q.1 = q.1 := hk q (List.mem_cons_self q qs)
          simp only [List.find?, hq]
          cases hqe : (q.1 == lowerS (String.mk (c :: bs))) with
          | true => rfl
          | false =>
            exact ih (fun p hp => hk p (List.mem_cons_of_mem q hp))
              (by
                unfold lookupMap at hl ⊢
                simpa [List.find?, hqe] using hl)
      obtain ⟨q, hq, hq2⟩ : ∃ q, map.find? (fun p => p.1 == lowerS (String.mk (c :: bs)))
          = some q ∧ q.2 = "" := by
        unfold lookupMap at hl
        cases hf : map.find? (fun p => p.1 == lowerS (String.mk (c :: bs))) with
        | none =>
          rw [hf] at hl
          exact absurd hl (by simp)
        | some q =>
          rw [hf] at hl
          refine ⟨q, rfl, ?_⟩
          simpa using hl
      simp only [replaceMatch, List.isEmpty, Bool.false_eq_true, if_false]
      rw [show lookupMap map (lowerS (String.mk (c :: bs))) = some "" from hl]
      simp only [jsFalsy, String.isEmpty, if_true]
      rw [hfind, hq]
      simp [jsFalsy, hq2]
  · intro text map hv
    unfold replaceTextWithMapSync replaceTextWithMapSyncRE
    split
    · rfl
    · show String.mk (scanGo (sortKeys (map.map (fun p => (lowerS p.1).toList))) map
        text.toList.length true text.toList) = text
      rw [scanGo_id _ _ (fun pre base sfx => replaceMatch_of_empty_vals map hv pre base sfx)]
      rfl

/-- C10 (witness): applying `empty_replacement_never_deletes` to the
dictionary `{"hate": ""}`: the text keeps its occurrence of `"hate"`. -/
theorem empty_replacement_never_deletes_witness :
    replaceTextWithMapSync "I hate this" [("hate", "")] = "I hate this" :=
  empty_replacement_never_deletes.2 "I hate this" [("hate", "")]
    (by
      rintro p hp
      rcases List.mem_singleton.mp hp with rfl
      rfl)

/-! ## Chunk locator lemmas -/

theorem leadsB_iff (p : List Char) : ∀ s : List Char, leadsB p s = true ↔ s.take p.length = p := by
  induction p with
  | nil =>
    intro s
    simp [leadsB]
  | cons c cs ih =>
    intro s
    cases s with
    | nil => simp [leadsB]
    | cons x xs =>
      unfold leadsB
      rw [List.length_cons, List.take_succ_cons]
      constructor
      · intro h
        simp only [Bool.and_eq_true, beq_iff_eq] at h
        rw [(ih xs).mp h.2, h.1]
      · intro h
        injection h with h1 h2
        simp only [Bool.and_eq_true, beq_iff_eq]
        exact ⟨h1.symm, (ih xs).mpr h2⟩

theorem occursAt_zero_iff (hay pat : List Char) :
    occursAt hay pat 0 ↔ leadsB pat hay = true := by
  unfold occursAt
  rw [List.drop_zero]
  exact (leadsB_iff pat hay).symm

theorem occursAt_succ (c : Char) (t pat : List Char) (i : Nat) :
    occursAt (c :: t) pat (i + 1) ↔ occursAt t pat i := Iff.rfl

theorem findAt_some_occurs (pat : List Char) :
    ∀ (hay : List Char) (i : Nat), findAt pat hay = some i → occursAt hay pat i := by
  intro hay
  induction hay with
  | nil =>
    intro i h
    unfold findAt at h
    split at h
    · obtain rfl : (0 : Nat) = i := by simpa using h
      rename_i hl
      exact (occursAt_zero_iff _ _).mpr hl
    · simp at h
  | cons c t ih =>
    intro i h
    unfold findAt at h
    split at h
    · obtain rfl : (0 : Nat) = i := by simpa using h
      rename_i hl
      exact (occursAt_zero_iff _ _).mpr hl
    · rcases Option.map_eq_some'.mp h with ⟨i', hi', rfl⟩
      exact (occursAt_succ c t pat i').mpr (ih i' hi')

theorem findAt_some_min (pat : List Char) :
    ∀ (hay : List Char) (i : Nat), findAt pat hay = some i →
      ∀ j, j < i → ¬occursAt hay pat j := by
  intro hay
  induction hay with
  | nil =>
    intro i h j hj
    unfold findAt at h
    split at h
    · obtain rfl : (0 : Nat) = i := by simpa using h
      exact absurd hj (Nat.not_lt_zero j)
    · simp at h
  | cons c t ih =>
    intro i h j hj
    unfold findAt at h
    split at h
    · obtain rfl : (0 : Nat) = i := by simpa using h
      exact absurd hj (Nat.not_lt_zero j)
    · rename_i hl
      rcases Option.map_eq_some'.mp h with ⟨i', hi', rfl⟩
      cases j with
      | zero =>
        intro hocc
        exact hl ((occursAt_zero_iff _ _).mp hocc)
      | succ j' =>
        intro hocc
        exact ih i' hi' j' (by omega) ((occursAt_succ c t pat j').mp hocc)

theorem findAt_none (pat : List Char) :
    ∀ (hay : List Char), findAt pat hay = none → ∀ i, ¬occursAt hay pat i := by
  intro hay
  induction hay with
  | nil =>
    intro h i hocc
    unfold findAt at h
    split at h
    · simp at h
    · rename_i hl
      unfold occursAt at hocc
      rw [List.drop_nil, List.take_nil] at hocc
      apply hl
      rw [← hocc]
      rfl
  | cons c t ih =>
    intro h i hocc
    unfold findAt at h
    split at h
    · simp at h
    · rename_i hl
      have ht : findAt pat t = none := Option.map_eq_none'.mp h
      cases i with
      | zero => exact hl ((occursAt_zero_iff _ _).mp hocc)
      | succ i' => exact ih ht i' ((occursAt_succ c t pat i').mp hocc)

theorem findAt_first (pat hay : List Char) (p : Nat)
    (hocc : occursAt hay pat p)
    (hfirst : ∀ q, occursAt hay pat q → p ≤ q) :
    findAt pat hay = some p := by
  cases hf : findAt pat hay with
  | none => exact absurd hocc (findAt_none pat hay hf p)
  | some j =>
    have h1 : p ≤ j := hfirst j (findAt_some_occurs pat hay j hf)
    have h2 : ¬p < j := fun hlt => (findAt_some_min pat hay j hf p hlt) hocc
    have : p = j := by omega
    rw [this]

theorem occursAt_add_length (hay pat : List Char) (i : Nat) (hne : pat ≠ [])
    (h : occursAt hay pat i) : i + pat.length ≤ hay.length := by
  unfold occursAt at h
  have hlen := congrArg List.length h
  rw [List.length_take, List.length_drop] at hlen
  have h1 : pat.length ≤ hay.length - i := by
    rcases Nat.le_total pat.length (hay.length - i) with hle | hle
    · exact hle
    · rw [Nat.min_eq_right hle] at hlen
      omega
  have h2 : 0 < pat.length := List.length_pos.mpr hne
  omega

theorem take_front_of_take_window (X pat : List Char) (w : Nat)
    (h : (X.take w).take pat.length = pat) : X.take pat.length = pat := by
  rw [List.take_take] at h
  rcases Nat.le_total pat.length w with hle | hle
  · rwa [Nat.min_eq_left hle] at h
  · rw [Nat.min_eq_right hle] at h
    have hlen := congrArg List.length h
    rw [List.length_take] at hlen
    have h2 : pat.length ≤ w := by
      have := Nat.min_le_left w X.length
      omega
    have h3 : w = pat.length := Nat.le_antisymm hle h2
    rwa [h3] at h

theorem take_window_of_take_front (X pat : List Char) (w : Nat)
    (hw : pat.length ≤ w) (h : X.take pat.length = pat) :
    (X.take w).take pat.length = pat := by
  rw [List.take_take, Nat.min_eq_left hw]
  exact h

theorem occursAt_slice (hay pat : List Char) (lo w j : Nat)
    (h : occursAt ((hay.drop lo).take w) pat j) : occursAt hay pat (lo + j) := by
  unfold occursAt at h ⊢
  rw [List.drop_take, List.drop_drop] at h
  exact take_front_of_take_window _ _ _ h

theorem occursAt_to_slice (hay pat : List Char) (lo w p : Nat)
    (hocc : occursAt hay pat p) (hlo : lo ≤ p) (hlen : p + pat.length ≤ lo + w) :
    occursAt ((hay.drop lo).take w) pat (p - lo) := by
  unfold occursAt at hocc ⊢
  rw [List.drop_take, List.drop_drop]
  have hpl : lo + (p - lo) = p := Nat.add_sub_cancel' hlo
  rw [hpl]
  exact take_window_of_take_front _ _ _ (by omega) hocc

theorem occursAt_take_pat (hay pat : List Char) (i m : Nat)
    (h : occursAt hay pat i) : occursAt hay (pat.take m) i := by
  unfold occursAt at h ⊢
  calc (hay.drop i).take (pat.take m).length
      = (hay.drop i).take (min m pat.length) := by rw [List.length_take]
    _ = ((hay.drop i).take pat.length).take m := (List.take_take m pat.length _).symm
    _ = pat.take m := by rw [h]

theorem ladder_none (buffer chunk : List Char) :
    ∀ ls : List Nat, ladder buffer chunk ls = none →
      ∀ n ∈ ls, findAt (chunk.take n) buffer = none := by
  intro ls
  induction ls with
  | nil =>
    intro _ n hn
    exact absurd hn (List.not_mem_nil n)
  | cons m ms ih =>
    intro h n hn
    unfold ladder at h
    cases hf : findAt (chunk.take m) buffer with
    | some i =>
      rw [hf] at h
      simp at h
    | none =>
      rw [hf] at h
      rcases List.mem_cons.mp hn with rfl | hn2
      · exact hf
      · exact ih h n hn2

theorem locateSteps_first (buffer chunk : List Char) (p lo hi : Nat)
    (hne : chunk ≠ [])
    (hocc : occursAt buffer chunk p)
    (hfirst : ∀ q, occursAt buffer chunk q → p ≤ q)
    (hlo : lo ≤ p) :
    locateSteps buffer chunk lo hi = some p := by
  unfold locateSteps
  cases hw : findAt chunk ((buffer.drop lo).take (hi - lo)) with
  | some j =>
    have hoccw : occursAt buffer chunk (lo + j) :=
      occursAt_slice _ _ _ _ _ (findAt_some_occurs _ _ _ hw)
    have hple : p ≤ lo + j := hfirst _ hoccw
    have hjlen : j + chunk.length ≤ ((buffer.drop lo).take (hi - lo)).length :=
      occursAt_add_length _ _ _ hne (findAt_some_occurs _ _ _ hw)
    have hwlen : ((buffer.drop lo).take (hi - lo)).length ≤ hi - lo := by
      rw [List.length_take]
      exact Nat.min_le_left _ _
    have hle : lo + j ≤ p := by
      by_contra hgt
      push_neg at hgt
      have hplen : p + chunk.length ≤ lo + (hi - lo) := by omega
      have hoccw2 : occursAt ((buffer.drop lo).take (hi - lo)) chunk (p - lo) :=
        occursAt_to_slice _ _ _ _ _ hocc hlo hplen
      exact (findAt_some_min _ _ _ hw (p - lo) (by omega)) hoccw2
    have heq : lo + j = p := Nat.le_antisymm hle hple
    dsimp only
    rw [heq]
  | none =>
    have hfull : findAt chunk buffer = some p := findAt_first _ _ _ hocc hfirst
    dsimp only
    rw [hfull]

theorem locateSteps_none (buffer chunk : List Char) (lo hi : Nat)
    (h : locateSteps buffer chunk lo hi = none) :
    ∀ n, 12 ≤ n → ∀ i, ¬occursAt buffer (chunk.take n) i := by
  have hlad : ladder buffer chunk ladderLens = none := by
    unfold locateSteps at h
    cases h1 : findAt chunk ((buffer.drop lo).take (hi - lo)) with
    | some i =>
      rw [h1] at h
      simp at h
    | none =>
      rw [h1] at h
      cases h2 : findAt chunk buffer with
      | some i =>
        rw [h2] at h
        simp at h
      | none =>
        rw [h2] at h
        cases h3 : findAt (chunk.take 60) buffer with
        | some i =>
          rw [h3] at h
          simp at h
        | none =>
          rw [h3] at h
          exact h
  have h12 : findAt (chunk.take 12) buffer = none :=
    ladder_none buffer chunk ladderLens hlad 12 (by decide)
  intro n hn i hocc
  have htk : occursAt buffer ((chunk.take n).take 12) i :=
    occursAt_take_pat _ _ _ _ hocc
  rw [List.take_take, Nat.min_eq_left hn] at htk
  exact findAt_none _ _ h12 i htk

/-! ## Claims about the chunk locator -/

/-- C7 (counterexample): the exact-match guarantee fails for a chunk that
occurs earlier in the buffer: the chunk `"ab"` copied verbatim from position 2
of the buffer `"abab"` is located at the first occurrence, position 0, not at
position 2. -/
theorem locate_counterexample :
    occursAt "abab".toList "ab".toList 2 ∧
    locate "abab".toList "ab".toList 2 = some 0 ∧
    (some 0 : Option Nat) ≠ some 2 := by
  refine ⟨by decide, by decide, by decide⟩

/-- C7 (amended): `locate` returns `p` for a chunk occurring at `p` whenever
`p` is the chunk's first occurrence in the buffer and the search window starts
at or before `p` (in particular for any chunk that occurs only once); and it
returns `NOT_FOUND` only when no head of the chunk of length at least 12
occurs anywhere in the buffer. -/
theorem locate_spec :
    (∀ (buffer chunk : List Char) (p approx : Nat),
      chunk ≠ [] →
      occursAt buffer chunk p →
      (∀ q, occursAt buffer chunk q → p ≤ q) →
      approx - 8000 ≤ p →
      locate buffer chunk approx = some p) ∧
    (∀ (buffer chunk : List Char) (approx : Nat),
      locate buffer chunk approx = none →
      ∀ n, 12 ≤ n → ∀ i, ¬occursAt buffer (chunk.take n) i) :=
  ⟨fun buffer chunk p approx hne hocc hfirst hwin =>
    locateSteps_first buffer chunk p (approx - 8000) (approx + 8000) hne hocc hfirst hwin,
   fun buffer chunk approx h =>
    locateSteps_none buffer chunk (approx - 8000) (approx + 8000) h⟩

/-- C7 (witness): applying `locate_spec` to the buffer `"hello"` and the chunk
`"hello"` copied from position 0. -/
theorem locate_spec_witness :
    locate "hello".toList "hello".toList 0 = some 0 :=
  locate_spec.1 "hello".toList "hello".toList 0 0 (by decide) (by decide)
    (fun q _ => Nat.zero_le q) (by decide)

end Aura
